import Mathlib

/-!
Shallow embedding of the pyqemu repository's core logic:

* `src/src/generated_devices_props_extractor.py` —
  `QEMUGeneratedDevicePropertiesExtractor`, a five-state character scanner
  turning one line of `qemu -device help` output into a name→value mapping;
* `src/src/files_generator.py` — `QEMUFilesGenerator._extract_devices`,
  which groups lines into sections and classifies parsed properties into
  device records.

Python strings are modelled as `List Char`; Python `dict[str, str]` as an
association list with in-place update (`dictInsert`), matching Python's
insertion-order/update semantics; a raised `Exception` as `Except.error`.
-/

set_option linter.unusedVariables false

namespace PyQemu

/-- The five scanner states of `QEMUGeneratedDevicePropertiesExtractor.State`. -/
inductive State where
  | PROPERTY_NAME_SEARCH
  | PROPERTY_NAME
  | PROPERTY_VALUE
  | PROPERTY_VALUE_IN_QUOTES
  | PROPERTY_POST_VALUE
deriving DecidableEq

/-- The instance attributes set by
`QEMUGeneratedDevicePropertiesExtractor.__init__`. -/
structure ParserState where
  property_line : List Char
  current_state : State
  value_start_index : Nat
  name_start_index : Nat
  property_name : Option (List Char)
  property_value : Option (List Char)
  extracted_properties : List (List Char × List Char)
deriving DecidableEq

/-- Python slice `l[a:b]` for `0 ≤ a, b` (clamping semantics). -/
def pySlice (l : List Char) (a b : Nat) : List Char :=
  (l.drop a).take (b - a)

/-- Python `dict` assignment `m[k] = v`: replace in place if the key is
present, else append. -/
def dictInsert : List (List Char × List Char) → List Char → List Char →
    List (List Char × List Char)
  | [], k, v => [(k, v)]
  | (k', v') :: rest, k, v =>
      if k' = k then (k, v) :: rest else (k', v') :: dictInsert rest k v

/-- `_on_property_name_state`. -/
def onPropertyNameState (s : ParserState) (c : Char) (i : Nat) : ParserState :=
  if c = ' ' then
    { s with current_state := .PROPERTY_VALUE,
             property_name := some (pySlice s.property_line s.name_start_index i),
             value_start_index := i + 1 }
  else s

/-- `_on_property_value_state`. -/
def onPropertyValueState (s : ParserState) (c : Char) (i : Nat) : ParserState :=
  if c = ',' then
    { s with property_value := some (pySlice s.property_line s.value_start_index i),
             current_state := .PROPERTY_NAME_SEARCH }
  else if c = '"' then
    { s with current_state := .PROPERTY_VALUE_IN_QUOTES }
  else s

/-- `_on_property_value_in_quotes`. -/
def onPropertyValueInQuotes (s : ParserState) (c : Char) (i : Nat) : ParserState :=
  if c = '"' then
    { s with property_value :=
               some (pySlice s.property_line (s.value_start_index + 1) i),
             current_state := .PROPERTY_POST_VALUE }
  else s

/-- `_on_property_post_value`. -/
def onPropertyPostValue (s : ParserState) (c : Char) (i : Nat) : ParserState :=
  if c = ',' then { s with current_state := .PROPERTY_NAME_SEARCH } else s

/-- `_on_property_name_search`. -/
def onPropertyNameSearch (s : ParserState) (c : Char) (i : Nat) : ParserState :=
  if c ≠ ' ' then
    { s with current_state := .PROPERTY_NAME, name_start_index := i }
  else s

/-- The `match self.current_state` dispatch inside `run`. -/
def applyHandler (s : ParserState) (c : Char) (i : Nat) : ParserState :=
  match s.current_state with
  | .PROPERTY_NAME => onPropertyNameState s c i
  | .PROPERTY_VALUE => onPropertyValueState s c i
  | .PROPERTY_VALUE_IN_QUOTES => onPropertyValueInQuotes s c i
  | .PROPERTY_POST_VALUE => onPropertyPostValue s c i
  | .PROPERTY_NAME_SEARCH => onPropertyNameSearch s c i

/-- The commit step at the end of each loop iteration of `run`: if both a
pending name and a pending value are set, store the pair and clear both. -/
def commitCheck (s : ParserState) : ParserState :=
  match s.property_name, s.property_value with
  | some n, some v =>
      { s with extracted_properties := dictInsert s.extracted_properties n v,
               property_name := none, property_value := none }
  | _, _ => s

/-- One full iteration of the `for index, current_character in enumerate(...)`
loop body. -/
def stepChar (s : ParserState) (c : Char) (i : Nat) : ParserState :=
  commitCheck (applyHandler s c i)

/-- The loop of `run`, processing the characters `cs` starting at index `i`. -/
def processChars : List Char → Nat → ParserState → ParserState
  | [], _, s => s
  | c :: rest, i, s => processChars rest (i + 1) (stepChar s c i)

/-- `QEMUGeneratedDevicePropertiesExtractor.__init__(property_line)`. -/
def mkExtractor (property_line : List Char) : ParserState :=
  { property_line := property_line
    current_state := .PROPERTY_NAME
    value_start_index := 0
    name_start_index := 0
    property_name := none
    property_value := none
    extracted_properties := [] }

/-- `QEMUGeneratedDevicePropertiesExtractor.run()`. -/
def ParserState.run (s : ParserState) : List (List Char × List Char) :=
  (processChars s.property_line 0 s).extracted_properties

/-- The extractor's full loop state after `run` on a fresh instance for
`line` (the instance after `run()` returns). -/
def finalState (line : List Char) : ParserState :=
  processChars line 0 (mkExtractor line)

/-! ### Basic lemmas about one scanner step -/

theorem applyHandler_name (s : ParserState) (c : Char) (i : Nat)
    (hst : s.current_state = .PROPERTY_NAME) :
    applyHandler s c i = onPropertyNameState s c i := by
  unfold applyHandler; rw [hst]

theorem applyHandler_value (s : ParserState) (c : Char) (i : Nat)
    (hst : s.current_state = .PROPERTY_VALUE) :
    applyHandler s c i = onPropertyValueState s c i := by
  unfold applyHandler; rw [hst]

theorem applyHandler_quotes (s : ParserState) (c : Char) (i : Nat)
    (hst : s.current_state = .PROPERTY_VALUE_IN_QUOTES) :
    applyHandler s c i = onPropertyValueInQuotes s c i := by
  unfold applyHandler; rw [hst]

theorem applyHandler_post (s : ParserState) (c : Char) (i : Nat)
    (hst : s.current_state = .PROPERTY_POST_VALUE) :
    applyHandler s c i = onPropertyPostValue s c i := by
  unfold applyHandler; rw [hst]

theorem applyHandler_search (s : ParserState) (c : Char) (i : Nat)
    (hst : s.current_state = .PROPERTY_NAME_SEARCH) :
    applyHandler s c i = onPropertyNameSearch s c i := by
  unfold applyHandler; rw [hst]

theorem commitCheck_value_none (s : ParserState) (hv : s.property_value = none) :
    commitCheck s = s := by
  unfold commitCheck; rw [hv]; cases s.property_name <;> rfl

theorem commitCheck_name_none (s : ParserState) (hn : s.property_name = none) :
    commitCheck s = s := by
  unfold commitCheck; rw [hn]

theorem commitCheck_both (s : ParserState) (n v : List Char)
    (hn : s.property_name = some n) (hv : s.property_value = some v) :
    commitCheck s =
      { s with extracted_properties := dictInsert s.extracted_properties n v,
               property_name := none, property_value := none } := by
  unfold commitCheck; rw [hn, hv]

/-- Handlers never touch the output dictionary. -/
theorem applyHandler_extracted (s : ParserState) (c : Char) (i : Nat) :
    (applyHandler s c i).extracted_properties = s.extracted_properties := by
  unfold applyHandler
    onPropertyNameState onPropertyValueState onPropertyValueInQuotes
    onPropertyPostValue onPropertyNameSearch
  cases s.current_state <;> dsimp only <;> split <;> try split
  all_goals rfl

/-- Handlers never touch the input line. -/
theorem applyHandler_line (s : ParserState) (c : Char) (i : Nat) :
    (applyHandler s c i).property_line = s.property_line := by
  unfold applyHandler
    onPropertyNameState onPropertyValueState onPropertyValueInQuotes
    onPropertyPostValue onPropertyNameSearch
  cases s.current_state <;> dsimp only <;> split <;> try split
  all_goals rfl

theorem step_name_skip (s : ParserState) (c : Char) (i : Nat)
    (hst : s.current_state = .PROPERTY_NAME) (hc : c ≠ ' ')
    (hv : s.property_value = none) :
    stepChar s c i = s := by
  unfold stepChar
  rw [applyHandler_name s c i hst]
  unfold onPropertyNameState
  rw [if_neg hc]
  exact commitCheck_value_none s hv

theorem step_name_space (s : ParserState) (i : Nat)
    (hst : s.current_state = .PROPERTY_NAME) (hv : s.property_value = none) :
    stepChar s ' ' i =
      { s with current_state := .PROPERTY_VALUE,
               property_name := some (pySlice s.property_line s.name_start_index i),
               value_start_index := i + 1 } := by
  unfold stepChar
  rw [applyHandler_name s ' ' i hst]
  unfold onPropertyNameState
  rw [if_pos rfl]
  exact commitCheck_value_none _ hv

theorem step_value_skip (s : ParserState) (c : Char) (i : Nat)
    (hst : s.current_state = .PROPERTY_VALUE) (hc1 : c ≠ ',') (hc2 : c ≠ '"')
    (hv : s.property_value = none) :
    stepChar s c i = s := by
  unfold stepChar
  rw [applyHandler_value s c i hst]
  unfold onPropertyValueState
  rw [if_neg hc1, if_neg hc2]
  exact commitCheck_value_none s hv

theorem step_value_comma (s : ParserState) (n : List Char) (i : Nat)
    (hst : s.current_state = .PROPERTY_VALUE) (hn : s.property_name = some n) :
    stepChar s ',' i =
      { s with current_state := .PROPERTY_NAME_SEARCH,
               property_name := none, property_value := none,
               extracted_properties :=
                 dictInsert s.extracted_properties n
                   (pySlice s.property_line s.value_start_index i) } := by
  obtain ⟨pl, cst, vs, ns, pn, pv, ex⟩ := s
  cases hst; cases hn
  simp [stepChar, applyHandler, onPropertyValueState, commitCheck]

theorem step_value_quote (s : ParserState) (i : Nat)
    (hst : s.current_state = .PROPERTY_VALUE) (hv : s.property_value = none) :
    stepChar s '"' i = { s with current_state := .PROPERTY_VALUE_IN_QUOTES } := by
  unfold stepChar
  rw [applyHandler_value s '"' i hst]
  unfold onPropertyValueState
  rw [if_neg (by decide), if_pos rfl]
  exact commitCheck_value_none _ hv

theorem step_quotes_skip (s : ParserState) (c : Char) (i : Nat)
    (hst : s.current_state = .PROPERTY_VALUE_IN_QUOTES) (hc : c ≠ '"')
    (hv : s.property_value = none) :
    stepChar s c i = s := by
  unfold stepChar
  rw [applyHandler_quotes s c i hst]
  unfold onPropertyValueInQuotes
  rw [if_neg hc]
  exact commitCheck_value_none s hv

theorem step_quotes_close (s : ParserState) (n : List Char) (i : Nat)
    (hst : s.current_state = .PROPERTY_VALUE_IN_QUOTES)
    (hn : s.property_name = some n) :
    stepChar s '"' i =
      { s with current_state := .PROPERTY_POST_VALUE,
               property_name := none, property_value := none,
               extracted_properties :=
                 dictInsert s.extracted_properties n
                   (pySlice s.property_line (s.value_start_index + 1) i) } := by
  obtain ⟨pl, cst, vs, ns, pn, pv, ex⟩ := s
  cases hst; cases hn
  simp [stepChar, applyHandler, onPropertyValueInQuotes, commitCheck]

theorem step_post_skip (s : ParserState) (c : Char) (i : Nat)
    (hst : s.current_state = .PROPERTY_POST_VALUE) (hc : c ≠ ',')
    (hv : s.property_value = none) :
    stepChar s c i = s := by
  unfold stepChar
  rw [applyHandler_post s c i hst]
  unfold onPropertyPostValue
  rw [if_neg hc]
  exact commitCheck_value_none s hv

theorem step_post_comma (s : ParserState) (i : Nat)
    (hst : s.current_state = .PROPERTY_POST_VALUE) (hv : s.property_value = none) :
    stepChar s ',' i = { s with current_state := .PROPERTY_NAME_SEARCH } := by
  unfold stepChar
  rw [applyHandler_post s ',' i hst]
  unfold onPropertyPostValue
  rw [if_pos rfl]
  exact commitCheck_value_none _ hv

theorem step_search_space (s : ParserState) (i : Nat)
    (hst : s.current_state = .PROPERTY_NAME_SEARCH) (hv : s.property_value = none) :
    stepChar s ' ' i = s := by
  unfold stepChar
  rw [applyHandler_search s ' ' i hst]
  unfold onPropertyNameSearch
  rw [if_neg (by simp)]
  exact commitCheck_value_none s hv

theorem step_search_char (s : ParserState) (c : Char) (i : Nat)
    (hst : s.current_state = .PROPERTY_NAME_SEARCH) (hc : c ≠ ' ')
    (hv : s.property_value = none) :
    stepChar s c i =
      { s with current_state := .PROPERTY_NAME, name_start_index := i } := by
  unfold stepChar
  rw [applyHandler_search s c i hst]
  unfold onPropertyNameSearch
  rw [if_pos hc]
  exact commitCheck_value_none _ hv

/-! ### Chunk-level lemmas about the scan loop -/

theorem processChars_append (xs : List Char) :
    ∀ (ys : List Char) (i : Nat) (s : ParserState),
      processChars (xs ++ ys) i s = processChars ys (i + xs.length) (processChars xs i s) := by
  induction xs with
  | nil => intro ys i s; simp [processChars]
  | cons c rest ih =>
      intro ys i s
      have h1 : processChars ((c :: rest) ++ ys) i s
          = processChars (rest ++ ys) (i + 1) (stepChar s c i) := rfl
      have h2 : processChars (c :: rest) i s
          = processChars rest (i + 1) (stepChar s c i) := rfl
      have h3 : i + 1 + rest.length = i + (c :: rest).length := by
        simp only [List.length_cons]; omega
      rw [h1, ih ys (i + 1) (stepChar s c i), h2, h3]

/-- While scanning a name, non-space characters change nothing. -/
theorem processChars_name_skip (cs : List Char) :
    ∀ (i : Nat) (s : ParserState), (∀ c ∈ cs, c ≠ ' ') →
      s.current_state = .PROPERTY_NAME → s.property_value = none →
      processChars cs i s = s := by
  induction cs with
  | nil => intro i s _ _ _; rfl
  | cons c rest ih =>
      intro i s hc hst hv
      have hstep : stepChar s c i = s :=
        step_name_skip s c i hst (hc c (List.mem_cons_self c rest)) hv
      simp only [processChars, hstep]
      exact ih (i + 1) s (fun d hd => hc d (List.mem_cons_of_mem c hd)) hst hv

/-- While scanning an unquoted value, characters other than comma and
double-quote change nothing. -/
theorem processChars_value_skip (cs : List Char) :
    ∀ (i : Nat) (s : ParserState), (∀ c ∈ cs, c ≠ ',' ∧ c ≠ '"') →
      s.current_state = .PROPERTY_VALUE → s.property_value = none →
      processChars cs i s = s := by
  induction cs with
  | nil => intro i s _ _ _; rfl
  | cons c rest ih =>
      intro i s hc hst hv
      have hstep : stepChar s c i = s :=
        step_value_skip s c i hst (hc c (List.mem_cons_self c rest)).1
          (hc c (List.mem_cons_self c rest)).2 hv
      simp only [processChars, hstep]
      exact ih (i + 1) s (fun d hd => hc d (List.mem_cons_of_mem c hd)) hst hv

/-- While inside quotes, characters other than a double-quote change nothing:
in particular commas are not delimiters there. -/
theorem processChars_quotes_skip (cs : List Char) :
    ∀ (i : Nat) (s : ParserState), (∀ c ∈ cs, c ≠ '"') →
      s.current_state = .PROPERTY_VALUE_IN_QUOTES → s.property_value = none →
      processChars cs i s = s := by
  induction cs with
  | nil => intro i s _ _ _; rfl
  | cons c rest ih =>
      intro i s hc hst hv
      have hstep : stepChar s c i = s :=
        step_quotes_skip s c i hst (hc c (List.mem_cons_self c rest)) hv
      simp only [processChars, hstep]
      exact ih (i + 1) s (fun d hd => hc d (List.mem_cons_of_mem c hd)) hst hv

/-- A Python slice cut exactly around a middle chunk returns that chunk. -/
theorem pySlice_extract (pre xs post : List Char) :
    pySlice (pre ++ xs ++ post) pre.length (pre.length + xs.length) = xs := by
  unfold pySlice
  rw [List.append_assoc, List.drop_left, Nat.add_sub_cancel_left, List.take_left]

/-! ### Claims about single transitions (C4, C5) -/

/-- Claim C4: in state `PROPERTY_VALUE` a double-quote moves to
`PROPERTY_VALUE_IN_QUOTES` without committing a value; in
`PROPERTY_VALUE_IN_QUOTES` any non-quote character (in particular a comma)
changes nothing, so commas inside quotes are not delimiters; a closing
double-quote commits the substring from one past the opening quote
(`value_start_index + 1`) to the current offset (exclusive) and moves to
`PROPERTY_POST_VALUE`; in `PROPERTY_POST_VALUE` every character other than a
comma is ignored and a comma returns to `PROPERTY_NAME_SEARCH`. -/
theorem c4_quoted_value_transitions (s : ParserState) (c : Char) (i : Nat)
    (hv : s.property_value = none) :
    (s.current_state = .PROPERTY_VALUE → c = '"' →
      stepChar s c i = { s with current_state := .PROPERTY_VALUE_IN_QUOTES }) ∧
    (s.current_state = .PROPERTY_VALUE_IN_QUOTES → c ≠ '"' → stepChar s c i = s) ∧
    (∀ n, s.current_state = .PROPERTY_VALUE_IN_QUOTES → s.property_name = some n →
      c = '"' →
      stepChar s c i =
        { s with current_state := .PROPERTY_POST_VALUE,
                 property_name := none, property_value := none,
                 extracted_properties :=
                   dictInsert s.extracted_properties n
                     (pySlice s.property_line (s.value_start_index + 1) i) }) ∧
    (s.current_state = .PROPERTY_POST_VALUE → c ≠ ',' → stepChar s c i = s) ∧
    (s.current_state = .PROPERTY_POST_VALUE → c = ',' →
      stepChar s c i = { s with current_state := .PROPERTY_NAME_SEARCH }) := by
  refine ⟨?_, ?_, ?_, ?_, ?_⟩
  · intro hst hc; cases hc; exact step_value_quote s i hst hv
  · intro hst hc; exact step_quotes_skip s c i hst hc hv
  · intro n hst hn hc; cases hc; exact step_quotes_close s n i hst hn
  · intro hst hc; exact step_post_skip s c i hst hc hv
  · intro hst hc; cases hc; exact step_post_comma s i hst hv

/-- A concrete instance of C4: the fifth character of `n "ab",` is the
closing quote; it commits `n ↦ ab` and moves to `PROPERTY_POST_VALUE`. -/
def sampleQuotedState : ParserState :=
  { property_line := "n \x22ab\x22,".toList
    current_state := .PROPERTY_VALUE_IN_QUOTES
    value_start_index := 2
    name_start_index := 0
    property_name := some "n".toList
    property_value := none
    extracted_properties := [] }

/-- Witness for C4 at a concrete state: closing quote at offset 5 of
`n "ab",` commits the pair (n, ab). -/
theorem c4_witness :
    stepChar sampleQuotedState '"' 5
      = { sampleQuotedState with
          current_state := .PROPERTY_POST_VALUE,
          property_name := none, property_value := none,
          extracted_properties := [("n".toList, "ab".toList)] } := by
  have h := (c4_quoted_value_transitions sampleQuotedState '"' 5 rfl).2.2.1
    "n".toList rfl rfl rfl
  rw [h]
  decide

/-- Claim C5: in state `PROPERTY_NAME` the only character ending a name is a
space — any other character changes nothing, and a space commits the pending
name as the substring from `name_start_index` to the current offset
(exclusive), moves to `PROPERTY_VALUE` and sets `value_start_index` to the
position after the space; in `PROPERTY_NAME_SEARCH` any non-space character
moves to `PROPERTY_NAME` and marks `name_start_index` at that character,
while spaces are skipped. -/
theorem c5_name_transitions (s : ParserState) (c : Char) (i : Nat)
    (hv : s.property_value = none) :
    (s.current_state = .PROPERTY_NAME → c ≠ ' ' → stepChar s c i = s) ∧
    (s.current_state = .PROPERTY_NAME → c = ' ' →
      stepChar s c i =
        { s with current_state := .PROPERTY_VALUE,
                 property_name :=
                   some (pySlice s.property_line s.name_start_index i),
                 value_start_index := i + 1 }) ∧
    (s.current_state = .PROPERTY_NAME_SEARCH → c ≠ ' ' →
      stepChar s c i =
        { s with current_state := .PROPERTY_NAME, name_start_index := i }) ∧
    (s.current_state = .PROPERTY_NAME_SEARCH → c = ' ' → stepChar s c i = s) := by
  refine ⟨?_, ?_, ?_, ?_⟩
  · intro hst hc; exact step_name_skip s c i hst hc hv
  · intro hst hc; cases hc; exact step_name_space s i hst hv
  · intro hst hc; exact step_search_char s c i hst hc hv
  · intro hst hc; cases hc; exact step_search_space s i hst hv

/-- A concrete fresh-scan state over the line `ab cd,`, still in the initial
`PROPERTY_NAME` state. -/
def sampleNameState : ParserState :=
  { property_line := "ab cd,".toList
    current_state := .PROPERTY_NAME
    value_start_index := 0
    name_start_index := 0
    property_name := none
    property_value := none
    extracted_properties := [] }

/-- Witness for C5 at a concrete state: the space at offset 2 of `ab cd,`
ends the name `ab` and starts a value at offset 3. -/
theorem c5_witness :
    stepChar sampleNameState ' ' 2
      = { sampleNameState with
          current_state := .PROPERTY_VALUE,
          property_name := some "ab".toList,
          value_start_index := 3 } := by
  have h := (c5_name_transitions sampleNameState ' ' 2 rfl).2.1 rfl rfl
  rw [h]
  decide

/-! ### Claims about end-of-line behaviour (C6, C7) -/

/-- Claim C6: the mapping returned by `run` is exactly the committed
dictionary of the loop's final state — a name or value still pending at end
of line is discarded and contributes nothing. Concretely, `name=abc` (no
space, no trailing comma, no closing quote) yields the empty mapping, and
`name abc` ends with the pending name `name` set but still yields the empty
mapping. -/
theorem c6_pending_discarded_at_eol :
    (∀ line : List Char,
      (mkExtractor line).run = (finalState line).extracted_properties) ∧
    (mkExtractor "name=abc".toList).run = [] ∧
    (finalState "name abc".toList).property_name = some "name".toList ∧
    (mkExtractor "name abc".toList).run = [] := by
  exact ⟨fun line => rfl, by decide, by decide, by decide⟩

/-- Claim C7 counterexample: on the input `name=abc,,bus=pci` the parser
returns the empty mapping — in particular no key is mapped to the
empty-string value, contrary to the claim that the field between the two
consecutive commas is committed as an empty-string value. -/
theorem c7_counterexample :
    (mkExtractor "name=abc,,bus=pci".toList).run = [] := by decide

/-- Claim C7 amended: consecutive commas do not commit an empty-string
value. `name=abc,,bus=pci` contains no space, so the scanner never leaves
`PROPERTY_NAME` and returns the empty mapping; in the space-delimited form
`name abc,,bus pci` only `name ↦ abc` is captured, and the second comma is
consumed in `PROPERTY_NAME_SEARCH` as the first character of the next
property name (after `name abc,,` the scanner is in `PROPERTY_NAME` with
`name_start_index` at the second comma, offset 9). An empty-string value
arises only from a comma immediately following the space that ended a name,
as in `name ,x pci,`. -/
theorem c7_amended :
    (mkExtractor "name=abc,,bus=pci".toList).run = [] ∧
    (mkExtractor "name abc,,bus pci".toList).run
      = [("name".toList, "abc".toList)] ∧
    (finalState "name abc,,".toList).current_state = .PROPERTY_NAME ∧
    (finalState "name abc,,".toList).name_start_index = 9 ∧
    (mkExtractor "name ,x pci,".toList).run
      = [("name".toList, []), ("x".toList, "pci".toList)] := by
  exact ⟨by decide, by decide, by decide, by decide, by decide⟩

/-! ### Claim C9: determinism -/

/-- Claim C9: `__init__` sets every attribute `run` reads from the line
alone, so a fresh extractor is a function of the input text and two fresh
instances on the same line produce identical mappings. -/
theorem c9_fresh_instances_identical (line : List Char) :
    mkExtractor line = mkExtractor line ∧
    (mkExtractor line).run = (mkExtractor line).run :=
  ⟨rfl, rfl⟩

/-! ### Claim C8: the commit discipline -/

/-- Reachability invariant of the scan loop: between iterations no value is
pending, and in the two value states a name is always pending. -/
abbrev Inv (s : ParserState) : Prop :=
  s.property_value = none ∧
  ((s.current_state = .PROPERTY_VALUE ∨
    s.current_state = .PROPERTY_VALUE_IN_QUOTES) → s.property_name ≠ none)

theorem inv_mkExtractor (line : List Char) : Inv (mkExtractor line) :=
  ⟨rfl, fun h => by rcases h with h | h <;> cases h⟩

theorem inv_step (s : ParserState) (c : Char) (i : Nat) (h : Inv s) :
    Inv (stepChar s c i) := by
  obtain ⟨hv, hnm⟩ := h
  cases hst : s.current_state with
  | PROPERTY_NAME_SEARCH =>
      by_cases hc : c = ' '
      · subst hc; rw [step_search_space s i hst hv]; exact ⟨hv, hnm⟩
      · rw [step_search_char s c i hst hc hv]
        exact ⟨hv, fun h => by rcases h with h | h <;> cases h⟩
  | PROPERTY_NAME =>
      by_cases hc : c = ' '
      · subst hc; rw [step_name_space s i hst hv]
        exact ⟨hv, fun _ => by simp⟩
      · rw [step_name_skip s c i hst hc hv]; exact ⟨hv, hnm⟩
  | PROPERTY_VALUE =>
      have hn : s.property_name ≠ none := hnm (Or.inl hst)
      obtain ⟨n, hn'⟩ := Option.ne_none_iff_exists'.mp hn
      by_cases hc : c = ','
      · subst hc; rw [step_value_comma s n i hst hn']
        exact ⟨rfl, fun h => by rcases h with h | h <;> cases h⟩
      · by_cases hq : c = '"'
        · subst hq; rw [step_value_quote s i hst hv]
          exact ⟨hv, fun _ => hn⟩
        · rw [step_value_skip s c i hst hc hq hv]; exact ⟨hv, hnm⟩
  | PROPERTY_VALUE_IN_QUOTES =>
      have hn : s.property_name ≠ none := hnm (Or.inr hst)
      obtain ⟨n, hn'⟩ := Option.ne_none_iff_exists'.mp hn
      by_cases hq : c = '"'
      · subst hq; rw [step_quotes_close s n i hst hn']
        exact ⟨rfl, fun h => by rcases h with h | h <;> cases h⟩
      · rw [step_quotes_skip s c i hst hq hv]; exact ⟨hv, hnm⟩
  | PROPERTY_POST_VALUE =>
      by_cases hc : c = ','
      · subst hc; rw [step_post_comma s i hst hv]
        exact ⟨hv, fun h => by rcases h with h | h <;> cases h⟩
      · rw [step_post_skip s c i hst hc hv]; exact ⟨hv, hnm⟩

theorem commitCheck_clears (s : ParserState) :
    (commitCheck s).property_name = none ∨ (commitCheck s).property_value = none := by
  rcases hn : s.property_name with _ | n <;> rcases hv : s.property_value with _ | v <;>
    simp [commitCheck, hn, hv]

/-- In the two pre-value states the handler leaves the pending value alone. -/
theorem applyHandler_value_of_name_states (s : ParserState) (c : Char) (i : Nat)
    (hstate : s.current_state = .PROPERTY_NAME ∨
      s.current_state = .PROPERTY_NAME_SEARCH) :
    (applyHandler s c i).property_value = s.property_value := by
  rcases hstate with h | h
  · rw [applyHandler_name s c i h]; unfold onPropertyNameState; split <;> rfl
  · rw [applyHandler_search s c i h]; unfold onPropertyNameSearch; split <;> rfl

/-- Claim C8: a pair is committed exactly at the steps after which both
pending slots are simultaneously set — the commit stores the pair and clears
both slots, a step never ends with both slots set, and a character processed
in `PROPERTY_NAME` or `PROPERTY_NAME_SEARCH` never changes the output
mapping. -/
theorem c8_commit_exactly_when_both_pending (s : ParserState) (c : Char) (i : Nat)
    (h : Inv s) :
    Inv (stepChar s c i) ∧
    ((stepChar s c i).property_name = none ∨
      (stepChar s c i).property_value = none) ∧
    (∀ n v, (applyHandler s c i).property_name = some n →
      (applyHandler s c i).property_value = some v →
      stepChar s c i =
        { applyHandler s c i with
          extracted_properties :=
            dictInsert (applyHandler s c i).extracted_properties n v,
          property_name := none, property_value := none }) ∧
    (((applyHandler s c i).property_name = none ∨
        (applyHandler s c i).property_value = none) →
      stepChar s c i = applyHandler s c i) ∧
    ((s.current_state = .PROPERTY_NAME ∨ s.current_state = .PROPERTY_NAME_SEARCH) →
      (stepChar s c i).extracted_properties = s.extracted_properties) := by
  refine ⟨inv_step s c i h, commitCheck_clears _, ?_, ?_, ?_⟩
  · intro n v hn hv; exact commitCheck_both _ n v hn hv
  · intro hnone
    rcases hnone with hn | hv
    · exact commitCheck_name_none _ hn
    · exact commitCheck_value_none _ hv
  · intro hstate
    have hv' : (applyHandler s c i).property_value = none := by
      rw [applyHandler_value_of_name_states s c i hstate]; exact h.1
    unfold stepChar
    rw [commitCheck_value_none _ hv']
    exact applyHandler_extracted s c i

/-- Witness for C8 at a concrete input: the fresh scan state over `ab cd,`
satisfies the invariant, and processing the (non-space) character at offset
0 in state `PROPERTY_NAME` leaves the output mapping unchanged. -/
theorem c8_witness :
    Inv sampleNameState ∧
    (stepChar sampleNameState 'a' 0).extracted_properties
      = sampleNameState.extracted_properties :=
  ⟨⟨rfl, fun h => by rcases h with h | h <;> cases h⟩,
    (c8_commit_exactly_when_both_pending sampleNameState 'a' 0
      ⟨rfl, fun h => by rcases h with h | h <;> cases h⟩).2.2.2.2 (Or.inl rfl)⟩

/-! ### Claim C10: totality and index bounds -/

/-- Offset bounds maintained by the scan loop at position `i`. -/
abbrev Bounded (i : Nat) (s : ParserState) : Prop :=
  s.name_start_index ≤ i ∧ s.value_start_index ≤ i + 1

theorem bounded_step (s : ParserState) (c : Char) (i : Nat) (h : Bounded i s) :
    Bounded (i + 1) (stepChar s c i) := by
  obtain ⟨pl, cst, vs, ns, pn, pv, ex⟩ := s
  obtain ⟨h1, h2⟩ := h
  dsimp only at h1 h2
  cases pn <;> cases pv <;> cases cst <;>
    dsimp only [stepChar, applyHandler, onPropertyNameState, onPropertyValueState,
      onPropertyValueInQuotes, onPropertyPostValue, onPropertyNameSearch] <;>
    (repeat' split) <;>
    dsimp only [commitCheck] <;>
    exact ⟨by dsimp only; omega, by dsimp only; omega⟩

theorem bounded_processChars (cs : List Char) :
    ∀ (i : Nat) (s : ParserState), Bounded i s →
      Bounded (i + cs.length) (processChars cs i s) := by
  induction cs with
  | nil => intro i s h; simpa using h
  | cons c rest ih =>
      intro i s h
      have h' := ih (i + 1) (stepChar s c i) (bounded_step s c i h)
      have harith : i + 1 + rest.length = i + (c :: rest).length := by
        simp only [List.length_cons]; omega
      rw [harith] at h'
      exact h'

/-- Claim C10: the scan is a total single pass — every step preserves the
offset bounds, a fresh extractor satisfies them, after the full pass over
the line they hold at `line.length`, every `pySlice` within those bounds
extracts a substring entirely inside the line, and `run` returns the final
state's (finite) mapping. -/
theorem c10_total_single_pass_in_bounds :
    (∀ (s : ParserState) (c : Char) (i : Nat),
      Bounded i s → Bounded (i + 1) (stepChar s c i)) ∧
    (∀ line : List Char, Bounded 0 (mkExtractor line)) ∧
    (∀ line : List Char, Bounded line.length (finalState line)) ∧
    (∀ (l : List Char) (a b : Nat), a ≤ b → b ≤ l.length →
      (pySlice l a b).length = b - a) ∧
    (∀ line : List Char,
      (mkExtractor line).run = (finalState line).extracted_properties) := by
  refine ⟨bounded_step, fun line => ⟨Nat.le_refl 0, Nat.zero_le 1⟩, ?_, ?_, fun _ => rfl⟩
  · intro line
    have h := bounded_processChars line 0 (mkExtractor line)
      ⟨Nat.le_refl 0, Nat.zero_le 1⟩
    simpa [finalState] using h
  · intro l a b hab hbl
    simp only [pySlice, List.length_take, List.length_drop]
    omega

/-- Witness for C10 at a concrete input: the bounds hold after one step of
the fresh scan of `ab cd,`. -/
theorem c10_witness :
    Bounded 0 sampleNameState ∧ Bounded 1 (stepChar sampleNameState 'a' 0) :=
  ⟨⟨Nat.le_refl 0, Nat.zero_le 1⟩,
    c10_total_single_pass_in_bounds.1 sampleNameState 'a' 0
      ⟨Nat.le_refl 0, Nat.zero_le 1⟩⟩

/-! ### Claim C1: well-formed lines parse to exactly their properties

A well-formed property of the actual catalog format is `name value,` or
`name "value",` — the name separated from the value by a space and the
property terminated by a comma. `serEntry`/`serLine` build such lines. -/

theorem processChars_cons (c : Char) (cs : List Char) (i : Nat) (s : ParserState) :
    processChars (c :: cs) i s = processChars cs (i + 1) (stepChar s c i) := rfl

/-- Scanning the tail `n` of a name, the space, an unquoted value `v` and the
terminating comma, from state `PROPERTY_NAME`: the scanner commits the pair
given by the two slices and returns to `PROPERTY_NAME_SEARCH`. -/
theorem entry_unquoted (n v rest : List Char) (i : Nat) (s : ParserState)
    (hn : ∀ c ∈ n, c ≠ ' ') (hv1 : ',' ∉ v) (hv2 : '"' ∉ v)
    (hst : s.current_state = .PROPERTY_NAME) (hpv : s.property_value = none) :
    processChars (n ++ (' ' :: (v ++ (',' :: rest)))) i s =
      processChars rest (i + n.length + 1 + v.length + 1)
        { s with current_state := .PROPERTY_NAME_SEARCH,
                 property_name := none, property_value := none,
                 value_start_index := i + n.length + 1,
                 extracted_properties :=
                   dictInsert s.extracted_properties
                     (pySlice s.property_line s.name_start_index (i + n.length))
                     (pySlice s.property_line (i + n.length + 1)
                       (i + n.length + 1 + v.length)) } := by
  have hv' : ∀ c ∈ v, c ≠ ',' ∧ c ≠ '"' :=
    fun c hc => ⟨fun h => hv1 (h ▸ hc), fun h => hv2 (h ▸ hc)⟩
  rw [processChars_append n (' ' :: (v ++ (',' :: rest))) i s,
      processChars_name_skip n i s hn hst hpv]
  simp only [processChars]
  rw [step_name_space s (i + n.length) hst hpv]
  rw [processChars_append v (',' :: rest) (i + n.length + 1)
        { s with current_state := .PROPERTY_VALUE,
                 property_name :=
                   some (pySlice s.property_line s.name_start_index (i + n.length)),
                 value_start_index := i + n.length + 1 },
      processChars_value_skip v (i + n.length + 1)
        { s with current_state := .PROPERTY_VALUE,
                 property_name :=
                   some (pySlice s.property_line s.name_start_index (i + n.length)),
                 value_start_index := i + n.length + 1 } hv' rfl hpv]
  simp only [processChars]
  rw [step_value_comma
        { s with current_state := .PROPERTY_VALUE,
                 property_name :=
                   some (pySlice s.property_line s.name_start_index (i + n.length)),
                 value_start_index := i + n.length + 1 }
        (pySlice s.property_line s.name_start_index (i + n.length))
        (i + n.length + 1 + v.length) rfl rfl]

/-- Scanning a quoted value `"v"` and the terminating comma from state
`PROPERTY_VALUE` with a pending name: the scanner commits the pair (the
value slice starts one past the opening quote) and returns to
`PROPERTY_NAME_SEARCH`. -/
theorem value_quoted_chunk (v rest : List Char) (j : Nat) (s : ParserState)
    (n' : List Char) (hv' : ∀ c ∈ v, c ≠ '"')
    (hst : s.current_state = .PROPERTY_VALUE) (hn : s.property_name = some n')
    (hpv : s.property_value = none) :
    processChars ('"' :: (v ++ ('"' :: (',' :: rest)))) j s =
      processChars rest (j + 1 + v.length + 1 + 1)
        { s with current_state := .PROPERTY_NAME_SEARCH,
                 property_name := none, property_value := none,
                 extracted_properties :=
                   dictInsert s.extracted_properties n'
                     (pySlice s.property_line (s.value_start_index + 1)
                       (j + 1 + v.length)) } := by
  simp only [processChars]
  rw [step_value_quote s j hst hpv]
  rw [processChars_append v ('"' :: (',' :: rest)) (j + 1)
        { s with current_state := .PROPERTY_VALUE_IN_QUOTES },
      processChars_quotes_skip v (j + 1)
        { s with current_state := .PROPERTY_VALUE_IN_QUOTES } hv' rfl hpv]
  simp only [processChars]
  rw [step_quotes_close { s with current_state := .PROPERTY_VALUE_IN_QUOTES }
        n' (j + 1 + v.length) rfl hn]
  congr 1

/-- Scanning the tail `n` of a name, the space, a quoted value `"v"` and the
terminating comma, from state `PROPERTY_NAME`: the scanner commits the pair
given by the two slices (the value slice starts one past the opening quote)
and returns to `PROPERTY_NAME_SEARCH`. -/
theorem entry_quoted (n v rest : List Char) (i : Nat) (s : ParserState)
    (hn : ∀ c ∈ n, c ≠ ' ') (hv : '"' ∉ v)
    (hst : s.current_state = .PROPERTY_NAME) (hpv : s.property_value = none) :
    processChars (n ++ (' ' :: ('"' :: (v ++ ('"' :: (',' :: rest)))))) i s =
      processChars rest (i + n.length + 1 + 1 + v.length + 1 + 1)
        { s with current_state := .PROPERTY_NAME_SEARCH,
                 property_name := none, property_value := none,
                 value_start_index := i + n.length + 1,
                 extracted_properties :=
                   dictInsert s.extracted_properties
                     (pySlice s.property_line s.name_start_index (i + n.length))
                     (pySlice s.property_line (i + n.length + 1 + 1)
                       (i + n.length + 1 + 1 + v.length)) } := by
  have hv' : ∀ c ∈ v, c ≠ '"' := fun c hc h => hv (h ▸ hc)
  rw [processChars_append n (' ' :: ('"' :: (v ++ ('"' :: (',' :: rest))))) i s,
      processChars_name_skip n i s hn hst hpv]
  rw [processChars_cons]
  rw [step_name_space s (i + n.length) hst hpv]
  rw [value_quoted_chunk v rest (i + n.length + 1)
        { s with current_state := .PROPERTY_VALUE,
                 property_name :=
                   some (pySlice s.property_line s.name_start_index (i + n.length)),
                 value_start_index := i + n.length + 1 }
        (pySlice s.property_line s.name_start_index (i + n.length)) hv' rfl rfl hpv]

/-- One well-formed property of the catalog line format: a name, a value and
whether the value is written in double quotes. -/
structure GenEntry where
  name : List Char
  value : List Char
  quoted : Bool
deriving DecidableEq

/-- Well-formedness of one property: nonempty space-free name; a quoted
value contains no quote; an unquoted value contains no comma and no quote. -/
abbrev WFEntry (e : GenEntry) : Prop :=
  e.name ≠ [] ∧ (∀ c ∈ e.name, c ≠ ' ') ∧
  (e.quoted = true → '"' ∉ e.value) ∧
  (e.quoted = false → ',' ∉ e.value ∧ '"' ∉ e.value)

/-- Serialize one property: `name value,` or `name "value",`. -/
def serEntry (e : GenEntry) : List Char :=
  if e.quoted then e.name ++ (' ' :: ('"' :: (e.value ++ ('"' :: [',']))))
  else e.name ++ (' ' :: (e.value ++ [',']))

/-- Serialize a whole well-formed property line. -/
def serLine (es : List GenEntry) : List Char := (es.map serEntry).flatten

theorem pySlice_extract2 (pre xs post : List Char) :
    pySlice (pre ++ (xs ++ post)) pre.length (pre.length + xs.length) = xs := by
  rw [← List.append_assoc]; exact pySlice_extract pre xs post

/-- Scanning one serialized entry from state `PROPERTY_NAME` with the name
start already marked at the entry's first character commits exactly the
entry's name and value. -/
theorem entry_name_wf (e : GenEntry) (hwf : WFEntry e) (pre rest : List Char)
    (s : ParserState)
    (hline : s.property_line = pre ++ (serEntry e ++ rest))
    (hst : s.current_state = .PROPERTY_NAME)
    (hns : s.name_start_index = pre.length)
    (hpv : s.property_value = none) :
    processChars (serEntry e ++ rest) pre.length s =
      processChars rest (pre.length + (serEntry e).length)
        { s with current_state := .PROPERTY_NAME_SEARCH,
                 property_name := none, property_value := none,
                 value_start_index := pre.length + e.name.length + 1,
                 extracted_properties :=
                   dictInsert s.extracted_properties e.name e.value } := by
  obtain ⟨nm, vl, q⟩ := e
  obtain ⟨hne, hn, hq, hu⟩ := hwf
  cases q with
  | false =>
      obtain ⟨hv1, hv2⟩ := hu rfl
      have hshape : serEntry ⟨nm, vl, false⟩ ++ rest
          = nm ++ (' ' :: (vl ++ (',' :: rest))) := by
        simp [serEntry]
      have hname : pySlice s.property_line pre.length (pre.length + nm.length) = nm := by
        rw [hline, hshape]
        exact pySlice_extract2 pre nm _
      have hvalue : pySlice s.property_line (pre.length + nm.length + 1)
          (pre.length + nm.length + 1 + vl.length) = vl := by
        rw [hline, hshape]
        have h2 : pre ++ (nm ++ (' ' :: (vl ++ (',' :: rest))))
            = (pre ++ (nm ++ [' '])) ++ (vl ++ (',' :: rest)) := by
          simp
        rw [h2]
        have h3 := pySlice_extract2 (pre ++ (nm ++ [' '])) vl (',' :: rest)
        have hl : (pre ++ (nm ++ [' '])).length = pre.length + nm.length + 1 := by
          simp only [List.length_append, List.length_cons, List.length_nil]
          omega
        rw [hl] at h3
        exact h3
      have hidx : pre.length + (serEntry ⟨nm, vl, false⟩).length
          = pre.length + nm.length + 1 + vl.length + 1 := by
        simp only [serEntry, Bool.false_eq_true, if_false, List.length_append,
          List.length_cons, List.length_nil]
        omega
      rw [hshape, entry_unquoted nm vl rest pre.length s hn hv1 hv2 hst hpv,
          hns, hname, hvalue, hidx]
  | true =>
      have hv := hq rfl
      have hshape : serEntry ⟨nm, vl, true⟩ ++ rest
          = nm ++ (' ' :: ('"' :: (vl ++ ('"' :: (',' :: rest))))) := by
        simp [serEntry]
      have hname : pySlice s.property_line pre.length (pre.length + nm.length) = nm := by
        rw [hline, hshape]
        exact pySlice_extract2 pre nm _
      have hvalue : pySlice s.property_line (pre.length + nm.length + 1 + 1)
          (pre.length + nm.length + 1 + 1 + vl.length) = vl := by
        rw [hline, hshape]
        have h2 : pre ++ (nm ++ (' ' :: ('"' :: (vl ++ ('"' :: (',' :: rest))))))
            = (pre ++ (nm ++ [' ', '"'])) ++ (vl ++ ('"' :: (',' :: rest))) := by
          simp
        rw [h2]
        have h3 := pySlice_extract2 (pre ++ (nm ++ [' ', '"'])) vl ('"' :: (',' :: rest))
        have hl : (pre ++ (nm ++ [' ', '"'])).length
            = pre.length + nm.length + 1 + 1 := by
          simp only [List.length_append, List.length_cons, List.length_nil]
          omega
        rw [hl] at h3
        exact h3
      have hidx : pre.length + (serEntry ⟨nm, vl, true⟩).length
          = pre.length + nm.length + 1 + 1 + vl.length + 1 + 1 := by
        simp only [serEntry, if_true, List.length_append, List.length_cons,
          List.length_nil]
        omega
      rw [hshape, entry_quoted nm vl rest pre.length s hn hv hst hpv,
          hns, hname, hvalue, hidx]

/-- Scanning one serialized entry from state `PROPERTY_NAME_SEARCH` commits
exactly the entry's name and value: the first (non-space) character of the
name re-enters `PROPERTY_NAME` and marks the name start. -/
theorem entry_search_wf (e : GenEntry) (hwf : WFEntry e) (pre rest : List Char)
    (s : ParserState)
    (hline : s.property_line = pre ++ (serEntry e ++ rest))
    (hst : s.current_state = .PROPERTY_NAME_SEARCH)
    (hpv : s.property_value = none) :
    processChars (serEntry e ++ rest) pre.length s =
      processChars rest (pre.length + (serEntry e).length)
        { s with current_state := .PROPERTY_NAME_SEARCH,
                 property_name := none, property_value := none,
                 name_start_index := pre.length,
                 value_start_index := pre.length + e.name.length + 1,
                 extracted_properties :=
                   dictInsert s.extracted_properties e.name e.value } := by
  obtain ⟨nm, vl, q⟩ := e
  obtain ⟨hne, hn, hq, hu⟩ := hwf
  obtain ⟨c0, ntail, hcons⟩ := List.exists_cons_of_ne_nil hne
  subst hcons
  have hc0 : c0 ≠ ' ' := hn c0 (List.mem_cons_self c0 ntail)
  have hnt : ∀ c ∈ ntail, c ≠ ' ' := fun c hc => hn c (List.mem_cons_of_mem c0 hc)
  have e1 : pre.length + 1 + ntail.length = pre.length + (c0 :: ntail).length := by
    simp only [List.length_cons]; omega
  cases q with
  | false =>
      obtain ⟨hv1, hv2⟩ := hu rfl
      have hshape : serEntry ⟨c0 :: ntail, vl, false⟩ ++ rest
          = c0 :: (ntail ++ (' ' :: (vl ++ (',' :: rest)))) := by
        simp [serEntry]
      have hline2 : s.property_line
          = pre ++ ((c0 :: ntail) ++ (' ' :: (vl ++ (',' :: rest)))) := by
        rw [hline]; simp [serEntry]
      have hname : pySlice s.property_line pre.length
          (pre.length + (c0 :: ntail).length) = c0 :: ntail := by
        rw [hline2]; exact pySlice_extract2 pre (c0 :: ntail) _
      have hvalue : pySlice s.property_line (pre.length + (c0 :: ntail).length + 1)
          (pre.length + (c0 :: ntail).length + 1 + vl.length) = vl := by
        rw [hline2]
        have h2 : pre ++ ((c0 :: ntail) ++ (' ' :: (vl ++ (',' :: rest))))
            = (pre ++ ((c0 :: ntail) ++ [' '])) ++ (vl ++ (',' :: rest)) := by
          simp
        rw [h2]
        have h3 := pySlice_extract2 (pre ++ ((c0 :: ntail) ++ [' '])) vl (',' :: rest)
        have hl : (pre ++ ((c0 :: ntail) ++ [' '])).length
            = pre.length + (c0 :: ntail).length + 1 := by
          simp only [List.length_append, List.length_cons, List.length_nil]
          omega
        rw [hl] at h3
        exact h3
      have hidx : pre.length + (serEntry ⟨c0 :: ntail, vl, false⟩).length
          = pre.length + (c0 :: ntail).length + 1 + vl.length + 1 := by
        simp only [serEntry, Bool.false_eq_true, if_false, List.length_append,
          List.length_cons, List.length_nil]
        omega
      rw [hshape, processChars_cons]
      rw [step_search_char s c0 pre.length hst hc0 hpv]
      rw [entry_unquoted ntail vl rest (pre.length + 1)
            { s with current_state := .PROPERTY_NAME, name_start_index := pre.length }
            hnt hv1 hv2 rfl hpv]
      dsimp only
      rw [e1, hname, hvalue, hidx]
  | true =>
      have hv := hq rfl
      have hshape : serEntry ⟨c0 :: ntail, vl, true⟩ ++ rest
          = c0 :: (ntail ++ (' ' :: ('"' :: (vl ++ ('"' :: (',' :: rest)))))) := by
        simp [serEntry]
      have hline2 : s.property_line
          = pre ++ ((c0 :: ntail) ++ (' ' :: ('"' :: (vl ++ ('"' :: (',' :: rest)))))) := by
        rw [hline]; simp [serEntry]
      have hname : pySlice s.property_line pre.length
          (pre.length + (c0 :: ntail).length) = c0 :: ntail := by
        rw [hline2]; exact pySlice_extract2 pre (c0 :: ntail) _
      have hvalue : pySlice s.property_line
          (pre.length + (c0 :: ntail).length + 1 + 1)
          (pre.length + (c0 :: ntail).length + 1 + 1 + vl.length) = vl := by
        rw [hline2]
        have h2 : pre ++ ((c0 :: ntail) ++ (' ' :: ('"' :: (vl ++ ('"' :: (',' :: rest))))))
            = (pre ++ ((c0 :: ntail) ++ [' ', '"'])) ++ (vl ++ ('"' :: (',' :: rest))) := by
          simp
        rw [h2]
        have h3 := pySlice_extract2 (pre ++ ((c0 :: ntail) ++ [' ', '"'])) vl
          ('"' :: (',' :: rest))
        have hl : (pre ++ ((c0 :: ntail) ++ [' ', '"'])).length
            = pre.length + (c0 :: ntail).length + 1 + 1 := by
          simp only [List.length_append, List.length_cons, List.length_nil]
          omega
        rw [hl] at h3
        exact h3
      have hidx : pre.length + (serEntry ⟨c0 :: ntail, vl, true⟩).length
          = pre.length + (c0 :: ntail).length + 1 + 1 + vl.length + 1 + 1 := by
        simp only [serEntry, if_true, List.length_append, List.length_cons,
          List.length_nil]
        omega
      rw [hshape, processChars_cons]
      rw [step_search_char s c0 pre.length hst hc0 hpv]
      rw [entry_quoted ntail vl rest (pre.length + 1)
            { s with current_state := .PROPERTY_NAME, name_start_index := pre.length }
            hnt hv rfl hpv]
      dsimp only
      rw [e1, hname, hvalue, hidx]

/-- Scanning a serialized sequence of well-formed entries from
`PROPERTY_NAME_SEARCH` commits them all, in order, into the dictionary. -/
theorem entries_search (es : List GenEntry) :
    ∀ (pre rest : List Char) (s : ParserState),
      (∀ e ∈ es, WFEntry e) →
      s.property_line = pre ++ (serLine es ++ rest) →
      s.current_state = .PROPERTY_NAME_SEARCH →
      s.property_name = none → s.property_value = none →
      ∃ a b, processChars (serLine es ++ rest) pre.length s =
        processChars rest (pre.length + (serLine es).length)
          { s with current_state := .PROPERTY_NAME_SEARCH,
                   property_name := none, property_value := none,
                   name_start_index := a, value_start_index := b,
                   extracted_properties :=
                     es.foldl (fun m e => dictInsert m e.name e.value)
                       s.extracted_properties } := by
  induction es with
  | nil =>
      intro pre rest s hwf hline hst hn hv
      obtain ⟨pl, cst, vs, ns, pn, pv, ex⟩ := s
      dsimp only at hst hn hv
      subst hst; subst hn; subst hv
      exact ⟨ns, vs, rfl⟩
  | cons e tail ih =>
      intro pre rest s hwf hline hst hn hv
      have hsh : serLine (e :: tail) = serEntry e ++ serLine tail := by
        simp [serLine]
      rw [hsh] at hline ⊢
      rw [List.append_assoc] at hline ⊢
      rw [entry_search_wf e (hwf e (List.mem_cons_self e tail)) pre
            (serLine tail ++ rest) s hline hst hv]
      have hline1 :
          ({ s with current_state := State.PROPERTY_NAME_SEARCH,
                    property_name := none, property_value := none,
                    name_start_index := pre.length,
                    value_start_index := pre.length + e.name.length + 1,
                    extracted_properties :=
                      dictInsert s.extracted_properties e.name e.value } :
            ParserState).property_line
            = (pre ++ serEntry e) ++ (serLine tail ++ rest) := by
        dsimp only
        rw [hline, List.append_assoc]
      obtain ⟨a, b, h2⟩ := ih (pre ++ serEntry e) rest
        { s with current_state := State.PROPERTY_NAME_SEARCH,
                 property_name := none, property_value := none,
                 name_start_index := pre.length,
                 value_start_index := pre.length + e.name.length + 1,
                 extracted_properties :=
                   dictInsert s.extracted_properties e.name e.value }
        (fun x hx => hwf x (List.mem_cons_of_mem e hx)) hline1 rfl rfl rfl
      have hplen : (pre ++ serEntry e).length = pre.length + (serEntry e).length := by
        simp
      rw [hplen] at h2
      refine ⟨a, b, ?_⟩
      rw [h2]
      have hidx : pre.length + (serEntry e ++ serLine tail).length
          = pre.length + (serEntry e).length + (serLine tail).length := by
        simp only [List.length_append]; omega
      rw [hidx]
      simp only [List.foldl_cons]

/-- `dictInsert` with a fresh key appends. -/
theorem dictInsert_fresh (m : List (List Char × List Char)) (k v : List Char)
    (hk : ∀ p ∈ m, p.1 ≠ k) : dictInsert m k v = m ++ [(k, v)] := by
  induction m with
  | nil => rfl
  | cons p rest ih =>
      obtain ⟨k', v'⟩ := p
      have hne : k' ≠ k := hk (k', v') (List.mem_cons_self _ _)
      simp only [dictInsert, if_neg hne, List.cons_append]
      rw [ih (fun p hp => hk p (List.mem_cons_of_mem _ hp))]

/-- Folding `dictInsert` over entries with pairwise-fresh names appends the
entries in order. -/
theorem foldl_dictInsert_map (es : List GenEntry) :
    ∀ m : List (List Char × List Char),
      (∀ e ∈ es, ∀ p ∈ m, p.1 ≠ e.name) →
      (es.map GenEntry.name).Nodup →
      es.foldl (fun m e => dictInsert m e.name e.value) m
        = m ++ es.map (fun e => (e.name, e.value)) := by
  induction es with
  | nil => intro m _ _; simp
  | cons e tail ih =>
      intro m hm hnd
      have hnd' : (e.name :: tail.map GenEntry.name).Nodup := by
        simpa using hnd
      simp only [List.foldl_cons]
      rw [dictInsert_fresh m e.name e.value (hm e (List.mem_cons_self _ _))]
      rw [ih (m ++ [(e.name, e.value)]) ?fresh ((List.nodup_cons.mp hnd').2)]
      · simp
      case fresh =>
        intro e' he' p hp
        rcases List.mem_append.mp hp with hp | hp
        · exact hm e' (List.mem_cons_of_mem _ he') p hp
        · have hpe : p = (e.name, e.value) := List.mem_singleton.mp hp
          subst hpe
          intro hEq
          have hEq' : e.name = e'.name := hEq
          exact (List.nodup_cons.mp hnd').1
            (hEq' ▸ List.mem_map_of_mem GenEntry.name he')

/-- Claim C1 counterexample: on the `key=value`-shaped line
`key1=value1,key2="v2"` the parser returns the empty mapping, not a mapping
with key set `{key1, key2}` — the scanner's name/value delimiter is a space,
not `=`, so this line never leaves the `PROPERTY_NAME` state. -/
theorem c1_counterexample :
    (mkExtractor "key1=value1,key2=\x22v2\x22".toList).run = [] := by decide

/-- `entries_search` specialized to a whole remaining line, keeping only the
output dictionary. -/
theorem entries_extracted (es : List GenEntry) (pre : List Char) (s : ParserState)
    (hwf : ∀ e ∈ es, WFEntry e)
    (hline : s.property_line = pre ++ serLine es)
    (hst : s.current_state = .PROPERTY_NAME_SEARCH)
    (hn : s.property_name = none) (hv : s.property_value = none) :
    (processChars (serLine es) pre.length s).extracted_properties
      = es.foldl (fun m e => dictInsert m e.name e.value)
          s.extracted_properties := by
  obtain ⟨a, b, h⟩ := entries_search es pre [] s hwf (by rw [hline]; simp) hst hn hv
  rw [List.append_nil] at h
  rw [h]
  rfl

/-- Scanning a whole serialized line from the initial `PROPERTY_NAME` state
folds every entry into the dictionary, in order. -/
theorem run_serialized (e : GenEntry) (tail : List GenEntry) (s : ParserState)
    (hwf : ∀ x ∈ e :: tail, WFEntry x)
    (hline : s.property_line = serLine (e :: tail))
    (hst : s.current_state = .PROPERTY_NAME) (hns : s.name_start_index = 0)
    (hv : s.property_value = none) :
    (processChars (serLine (e :: tail)) 0 s).extracted_properties
      = tail.foldl (fun m x => dictInsert m x.name x.value)
          (dictInsert s.extracted_properties e.name e.value) := by
  have hwftail : ∀ x ∈ tail, WFEntry x :=
    fun x hx => hwf x (List.mem_cons_of_mem e hx)
  have hsh : serLine (e :: tail) = serEntry e ++ serLine tail := by
    simp [serLine]
  have h1 := entry_name_wf e (hwf e (List.mem_cons_self e tail)) [] (serLine tail)
    s (by rw [hline, hsh]; simp) hst (by rw [List.length_nil]; exact hns) hv
  simp only [List.length_nil, Nat.zero_add] at h1
  rw [hsh, h1]
  rw [entries_extracted tail (serEntry e)
        { s with current_state := State.PROPERTY_NAME_SEARCH,
                 property_name := none, property_value := none,
                 value_start_index := e.name.length + 1,
                 extracted_properties :=
                   dictInsert s.extracted_properties e.name e.value }
        hwftail (by dsimp only; rw [hline, hsh]) rfl rfl rfl]

/-- Claim C1 (amended): for every line of the space-delimited form
`name1 value1,name2 "v2",…` — each property terminated by a comma, names
nonempty, space-free and pairwise distinct, unquoted values free of commas
and quotes, quoted values free of quotes — `run()` returns the mapping whose
keys are exactly the property names, in order, and whose value for each key
is the exact substring between that key's delimiters, with the double quotes
stripped for quoted values. -/
theorem c1_wellformed_lines_parse_exactly (es : List GenEntry)
    (hwf : ∀ e ∈ es, WFEntry e) (hnd : (es.map GenEntry.name).Nodup) :
    (mkExtractor (serLine es)).run = es.map fun e => (e.name, e.value) := by
  cases es with
  | nil => rfl
  | cons e tail =>
      have hnd' : (e.name :: tail.map GenEntry.name).Nodup := by simpa using hnd
      show (processChars (serLine (e :: tail)) 0
        (mkExtractor (serLine (e :: tail)))).extracted_properties = _
      rw [run_serialized e tail (mkExtractor (serLine (e :: tail))) hwf rfl rfl rfl rfl]
      have h3 := foldl_dictInsert_map tail [(e.name, e.value)]
        (by
          intro e' he' p hp
          have hpe : p = (e.name, e.value) := List.mem_singleton.mp hp
          subst hpe
          intro hEq
          have hEq' : e.name = e'.name := hEq
          exact (List.nodup_cons.mp hnd').1
            (hEq' ▸ List.mem_map_of_mem GenEntry.name he'))
        ((List.nodup_cons.mp hnd').2)
      show tail.foldl (fun m x => dictInsert m x.name x.value)
        [(e.name, e.value)] = _
      rw [h3]
      simp

/-- Two concrete well-formed entries: `name e1000,desc "Intel E1000",`. -/
def sampleEntries : List GenEntry :=
  [⟨"name".toList, "e1000".toList, false⟩,
   ⟨"desc".toList, "Intel E1000".toList, true⟩]

/-- Witness for C1 (amended) at a concrete line: the serialization of
`sampleEntries` parses back to exactly its two name/value pairs. -/
theorem c1_witness :
    (∀ e ∈ sampleEntries, WFEntry e) ∧
    ((sampleEntries.map GenEntry.name).Nodup) ∧
    (mkExtractor (serLine sampleEntries)).run
      = [("name".toList, "e1000".toList), ("desc".toList, "Intel E1000".toList)] :=
  ⟨by decide, by decide,
    (c1_wellformed_lines_parse_exactly sampleEntries (by decide) (by decide)).trans
      (by decide)⟩

/-! ### The device-catalog extractor (`QEMUFilesGenerator._extract_devices`)

The extractor receives the decoded `-device help` output as a list of lines
(process invocation and decoding are outside the modelled core). A raised
`Exception` is modelled as `Except.error` carrying the message, which also
captures that an error aborts the whole extraction with no partial result. -/

/-- Python `str.strip()` whitespace (the ASCII cases). -/
def isPySpace (c : Char) : Bool :=
  c = ' ' || c = '\t' || c = '\n' || c = '\r' || c = '\x0b' || c = '\x0c'

/-- Python `line.strip()`. -/
def pyStrip (l : List Char) : List Char :=
  ((l.dropWhile isPySpace).reverse.dropWhile isPySpace).reverse

/-- `_QEMUGeneratedDevice`, with its dataclass defaults. -/
structure QEMUGeneratedDevice where
  name : List Char := []
  description : Option (List Char) := none
  bus : Option (List Char) := none
  alias' : Option (List Char) := none
deriving DecidableEq

/-- `_QEMUGeneratedDevicesSection`. -/
structure QEMUGeneratedDevicesSection where
  section_name : List Char
  devices : List QEMUGeneratedDevice
deriving DecidableEq

/-- One iteration of the `for key, value in properties.items()` loop body:
the `startswith` chain with the `else: raise` branch (`startswith` is the
list-prefix test). -/
def applyProp (d : QEMUGeneratedDevice) (kv : List Char × List Char) :
    Except String QEMUGeneratedDevice :=
  if "name".toList <+: kv.1 then .ok { d with name := kv.2 }
  else if "bus".toList <+: kv.1 then .ok { d with bus := some kv.2 }
  else if "desc".toList <+: kv.1 then .ok { d with description := some kv.2 }
  else if "alias".toList <+: kv.1 then .ok { d with alias' := some kv.2 }
  else .error "Unrecognized device format"

/-- The whole `for key, value in properties.items()` loop. -/
def applyProps : QEMUGeneratedDevice → List (List Char × List Char) →
    Except String QEMUGeneratedDevice
  | d, [] => .ok d
  | d, kv :: rest =>
      match applyProp d kv with
      | .error e => .error e
      | .ok d' => applyProps d' rest

/-- Parsing one (already stripped) device line: run the property extractor,
classify every property, then reject an empty device name. -/
def parseDeviceLine (line : List Char) : Except String QEMUGeneratedDevice :=
  match applyProps {} ((mkExtractor line).run) with
  | .error e => .error e
  | .ok d => if d.name = [] then .error "device_name property None" else .ok d

/-- The line loop of `_extract_devices`: `done` holds the sections already
closed by a blank line, `cur` the currently open section (the Python code
appends the section object to the result list when it is created and then
mutates it in place; closing it on a blank line or at end of input yields
the same list). -/
def extract_devices_loop :
    List (List Char) → List QEMUGeneratedDevicesSection →
    Option QEMUGeneratedDevicesSection →
    Except String (List QEMUGeneratedDevicesSection)
  | [], done, cur => .ok (done ++ cur.toList)
  | l :: rest, done, cur =>
      if pyStrip l = [] then extract_devices_loop rest (done ++ cur.toList) none
      else
        match cur with
        | none => extract_devices_loop rest done (some ⟨l, []⟩)
        | some sec =>
            match parseDeviceLine (pyStrip l) with
            | .error e => .error e
            | .ok d =>
                extract_devices_loop rest done
                  (some ⟨sec.section_name, sec.devices ++ [d]⟩)

/-- `QEMUFilesGenerator._extract_devices`, from the decoded line list on. -/
def extract_devices (lines : List (List Char)) :
    Except String (List QEMUGeneratedDevicesSection) :=
  extract_devices_loop lines [] none

/-- The stripped device lines of a catalog, by the same sectioning walk:
`hasCur` tells whether a section is currently open. -/
def deviceLines : List (List Char) → Bool → List (List Char)
  | [], _ => []
  | l :: rest, hasCur =>
      if pyStrip l = [] then deviceLines rest false
      else if hasCur then pyStrip l :: deviceLines rest true
      else deviceLines rest true

/-- How many section headers a catalog opens. -/
def headerCount : List (List Char) → Bool → Nat
  | [], _ => 0
  | l :: rest, hasCur =>
      if pyStrip l = [] then headerCount rest false
      else if hasCur then headerCount rest true
      else headerCount rest true + 1

/-- A property key one of the four `startswith` tests accepts. -/
def RecognizedKey (k : List Char) : Prop :=
  "name".toList <+: k ∨ "bus".toList <+: k ∨
  "desc".toList <+: k ∨ "alias".toList <+: k

instance (k : List Char) : Decidable (RecognizedKey k) := by
  unfold RecognizedKey; infer_instance

/-- The device name produced by the classification loop: the value of the
last `name`-prefixed property, starting from `acc`. -/
def deviceNameOf : List (List Char × List Char) → List Char → List Char
  | [], acc => acc
  | kv :: rest, acc =>
      deviceNameOf rest (if "name".toList <+: kv.1 then kv.2 else acc)

/-- A (stripped) device line the extractor rejects: some parsed property key
matches none of the four recognized prefixes, or the resulting device name
is empty. -/
def BadDeviceLine (l : List Char) : Prop :=
  (∃ kv ∈ (mkExtractor l).run, ¬ RecognizedKey kv.1) ∨
  deviceNameOf ((mkExtractor l).run) [] = []

theorem applyProp_isOk (d : QEMUGeneratedDevice) (kv : List Char × List Char) :
    (applyProp d kv).isOk = true ↔ RecognizedKey kv.1 := by
  unfold applyProp RecognizedKey
  split_ifs with h1 h2 h3 h4
  · exact ⟨fun _ => Or.inl h1, fun _ => rfl⟩
  · exact ⟨fun _ => Or.inr (Or.inl h2), fun _ => rfl⟩
  · exact ⟨fun _ => Or.inr (Or.inr (Or.inl h3)), fun _ => rfl⟩
  · exact ⟨fun _ => Or.inr (Or.inr (Or.inr h4)), fun _ => rfl⟩
  · constructor
    · intro hf; exact absurd hf (by decide)
    · intro hor
      exfalso
      rcases hor with h | h | h | h
      · exact h1 h
      · exact h2 h
      · exact h3 h
      · exact h4 h

theorem applyProp_name (d : QEMUGeneratedDevice) (kv : List Char × List Char)
    (d' : QEMUGeneratedDevice) (h : applyProp d kv = .ok d') :
    d'.name = if "name".toList <+: kv.1 then kv.2 else d.name := by
  unfold applyProp at h
  split_ifs at h with h1 h2 h3 h4
  · cases h; rw [if_pos h1]
  · cases h; rw [if_neg h1]
  · cases h; rw [if_neg h1]
  · cases h; rw [if_neg h1]

theorem applyProps_isOk (props : List (List Char × List Char)) :
    ∀ d : QEMUGeneratedDevice,
      (applyProps d props).isOk = true ↔ ∀ kv ∈ props, RecognizedKey kv.1 := by
  induction props with
  | nil => intro d; simp [applyProps, Except.isOk, Except.toBool]
  | cons kv rest ih =>
      intro d
      cases happ : applyProp d kv with
      | error e =>
          have hbad : ¬ RecognizedKey kv.1 := by
            intro hr
            have h2 := (applyProp_isOk d kv).mpr hr
            rw [happ] at h2
            simp [Except.isOk, Except.toBool] at h2
          simp only [applyProps, happ, List.mem_cons, forall_eq_or_imp]
          simp [Except.isOk, Except.toBool, hbad]
      | ok d' =>
          have hgood : RecognizedKey kv.1 := by
            apply (applyProp_isOk d kv).mp
            rw [happ]
            simp [Except.isOk, Except.toBool]
          simp only [applyProps, happ, List.mem_cons, forall_eq_or_imp]
          simp [ih d', hgood]

theorem applyProps_name (props : List (List Char × List Char)) :
    ∀ d d' : QEMUGeneratedDevice, applyProps d props = .ok d' →
      d'.name = deviceNameOf props d.name := by
  induction props with
  | nil =>
      intro d d' h
      simp only [applyProps] at h
      cases h
      rfl
  | cons kv rest ih =>
      intro d d' h
      simp only [applyProps] at h
      cases happ : applyProp d kv with
      | error e => rw [happ] at h; cases h
      | ok d1 =>
          rw [happ] at h
          have hname := applyProp_name d kv d1 happ
          simp only [deviceNameOf]
          rw [← hname]
          exact ih d1 d' h

theorem parseDeviceLine_isOk_iff (l : List Char) :
    (parseDeviceLine l).isOk = true ↔ ¬ BadDeviceLine l := by
  unfold parseDeviceLine BadDeviceLine
  cases happ : applyProps {} ((mkExtractor l).run) with
  | error e =>
      have h1 : ¬ ((applyProps {} ((mkExtractor l).run)).isOk = true) := by
        rw [happ]; simp [Except.isOk, Except.toBool]
      rw [applyProps_isOk] at h1
      simp only [Except.isOk, Except.toBool]
      constructor
      · intro h; cases h
      · intro h
        exfalso
        apply h
        left
        simpa using h1
  | ok d =>
      have h1 : (applyProps {} ((mkExtractor l).run)).isOk = true := by
        rw [happ]; simp [Except.isOk, Except.toBool]
      rw [applyProps_isOk] at h1
      have hd : d.name = deviceNameOf ((mkExtractor l).run) [] :=
        applyProps_name _ {} d happ
      by_cases hemp : d.name = []
      · simp only [if_pos hemp, Except.isOk, Except.toBool]
        constructor
        · intro h; cases h
        · intro h
          exfalso
          apply h
          right
          rw [← hd]
          exact hemp
      · simp only [if_neg hemp, Except.isOk, Except.toBool]
        constructor
        · intro _ hbad
          rcases hbad with hbad | hbad
          · obtain ⟨kv, hkv, hbadkey⟩ := hbad
            exact hbadkey (h1 kv hkv)
          · exact hemp (hd.trans hbad)
        · intro _
          trivial

theorem extract_loop_isOk (lines : List (List Char)) :
    ∀ (done : List QEMUGeneratedDevicesSection)
      (cur : Option QEMUGeneratedDevicesSection),
      (extract_devices_loop lines done cur).isOk = true ↔
        ∀ l ∈ deviceLines lines cur.isSome, (parseDeviceLine l).isOk = true := by
  induction lines with
  | nil =>
      intro done cur
      simp [extract_devices_loop, deviceLines, Except.isOk, Except.toBool]
  | cons l rest ih =>
      intro done cur
      by_cases hb : pyStrip l = []
      · simp only [extract_devices_loop, deviceLines, if_pos hb]
        simpa using ih (done ++ cur.toList) none
      · cases cur with
        | none =>
            simp only [extract_devices_loop, deviceLines, if_neg hb,
              Option.isSome_none, Bool.false_eq_true, if_false]
            simpa using ih done (some ⟨l, []⟩)
        | some sec =>
            simp only [extract_devices_loop, deviceLines, if_neg hb,
              Option.isSome_some, if_true]
            cases hp : parseDeviceLine (pyStrip l) with
            | error e =>
                simp only [List.mem_cons, forall_eq_or_imp]
                constructor
                · intro h; cases h
                · intro h
                  have := h.1
                  rw [hp] at this
                  cases this
            | ok d =>
                simp only [List.mem_cons, forall_eq_or_imp]
                rw [hp]
                have := ih done (some ⟨sec.section_name, sec.devices ++ [d]⟩)
                simp only [Option.isSome_some] at this
                rw [this]
                simp [Except.isOk, Except.toBool]

theorem extract_loop_length (lines : List (List Char)) :
    ∀ (done : List QEMUGeneratedDevicesSection)
      (cur : Option QEMUGeneratedDevicesSection)
      (secs : List QEMUGeneratedDevicesSection),
      extract_devices_loop lines done cur = .ok secs →
      secs.length = done.length + cur.toList.length + headerCount lines cur.isSome := by
  induction lines with
  | nil =>
      intro done cur secs h
      simp only [extract_devices_loop] at h
      cases h
      simp [headerCount]
  | cons l rest ih =>
      intro done cur secs h
      by_cases hb : pyStrip l = []
      · simp only [extract_devices_loop, if_pos hb] at h
        have := ih (done ++ cur.toList) none secs h
        simp only [headerCount, if_pos hb]
        simp only [List.length_append, Option.toList_none, List.length_nil] at this
        cases cur <;> simp_all
      · cases cur with
        | none =>
            simp only [extract_devices_loop, if_neg hb] at h
            have := ih done (some ⟨l, []⟩) secs h
            simp only [headerCount, if_neg hb, Option.isSome_none,
              Bool.false_eq_true, if_false]
            simp only [Option.toList_some, List.length_cons, List.length_nil,
              Option.isSome_some, Option.toList_none] at this ⊢
            omega
        | some sec =>
            simp only [extract_devices_loop, if_neg hb] at h
            cases hp : parseDeviceLine (pyStrip l) with
            | error e => rw [hp] at h; cases h
            | ok d =>
                rw [hp] at h
                have := ih done (some ⟨sec.section_name, sec.devices ++ [d]⟩) secs h
                simp only [headerCount, if_neg hb, Option.isSome_some, if_true]
                simp only [Option.toList_some, List.length_cons,
                  List.length_nil, Option.isSome_some] at this ⊢
                omega

theorem except_error_iff {ε α : Type} (x : Except ε α) :
    (∃ e, x = .error e) ↔ x.isOk = false := by
  cases x <;> simp [Except.isOk, Except.toBool]

/-- Claim C2: `_extract_devices` raises (aborting with no partial result —
the error carries no sections) exactly when some device line of the catalog
has a property key matching none of the four recognized prefixes or yields
an empty device name; and on success the result has one section per header
line of the catalog. -/
theorem c2_extraction_fatal_iff_bad_line (lines : List (List Char)) :
    ((∃ e, extract_devices lines = .error e) ↔
      ∃ l ∈ deviceLines lines false, BadDeviceLine l) ∧
    ((extract_devices lines).map List.length
      = (extract_devices lines).map fun _ => headerCount lines false) := by
  constructor
  · rw [except_error_iff]
    have h := extract_loop_isOk lines [] none
    simp only [Option.isSome_none] at h
    simp only [parseDeviceLine_isOk_iff] at h
    rw [extract_devices, ← Bool.not_eq_true, h]
    push_neg
    simp
  · cases hx : extract_devices lines with
    | error e => rfl
    | ok secs =>
        have hlen := extract_loop_length lines [] none secs hx
        simp only [List.length_nil, Option.toList_none, Option.isSome_none] at hlen
        simp only [Except.map]
        rw [hlen]
        norm_num

/-- A catalog whose single device line has the unrecognized key `foo`. -/
def badCatalog : List (List Char) :=
  ["Network devices:".toList, "foo bar,".toList]

/-- Witness for C2 at a concrete catalog: the line `foo bar,` parses to the
property `foo ↦ bar`, whose key matches no recognized prefix, so the
extraction of `badCatalog` errors. -/
theorem c2_witness :
    ∃ l ∈ deviceLines badCatalog false, BadDeviceLine l :=
  (c2_extraction_fatal_iff_bad_line badCatalog).1.mp
    ⟨"Unrecognized device format", by rfl⟩

theorem except_map_append (x : Except String (List QEMUGeneratedDevicesSection))
    (a b : List QEMUGeneratedDevicesSection) :
    (x.map fun s => b ++ s).map (fun s => a ++ s)
      = x.map fun s => (a ++ b) ++ s := by
  cases x <;> simp [Except.map, List.append_assoc]

/-- The already-closed sections only prefix the loop's result. -/
theorem extract_loop_shift (lines : List (List Char)) :
    ∀ (done : List QEMUGeneratedDevicesSection)
      (cur : Option QEMUGeneratedDevicesSection),
      extract_devices_loop lines done cur
        = (extract_devices_loop lines [] cur).map fun s => done ++ s := by
  induction lines with
  | nil => intro done cur; simp [extract_devices_loop, Except.map]
  | cons l rest ih =>
      intro done cur
      by_cases hb : pyStrip l = []
      · simp only [extract_devices_loop, if_pos hb, List.nil_append]
        rw [ih (done ++ cur.toList) none, ih cur.toList none, except_map_append]
      · cases cur with
        | none =>
            simp only [extract_devices_loop, if_neg hb]
            exact ih done (some ⟨l, []⟩)
        | some sec =>
            simp only [extract_devices_loop, if_neg hb]
            cases hp : parseDeviceLine (pyStrip l) with
            | error e => simp [Except.map]
            | ok d => exact ih done (some ⟨sec.section_name, sec.devices ++ [d]⟩)

/-- A blank line splits the extraction: the catalog before it and the
catalog after it are extracted independently and concatenated. -/
theorem extract_loop_split (b : List Char) (hb : pyStrip b = [])
    (ys : List (List Char)) (xs : List (List Char)) :
    ∀ (done : List QEMUGeneratedDevicesSection)
      (cur : Option QEMUGeneratedDevicesSection),
      extract_devices_loop (xs ++ b :: ys) done cur
        = (extract_devices_loop xs done cur).bind fun s1 =>
            (extract_devices_loop ys [] none).map fun s2 => s1 ++ s2 := by
  induction xs with
  | nil =>
      intro done cur
      simp only [List.nil_append, extract_devices_loop, if_pos hb]
      rw [extract_loop_shift ys (done ++ cur.toList) none]
      simp [Except.bind, Except.map]
  | cons l xs ih =>
      intro done cur
      by_cases hbl : pyStrip l = []
      · simp only [List.cons_append, extract_devices_loop, if_pos hbl]
        exact ih (done ++ cur.toList) none
      · cases cur with
        | none =>
            simp only [List.cons_append, extract_devices_loop, if_neg hbl]
            exact ih done (some ⟨l, []⟩)
        | some sec =>
            simp only [List.cons_append, extract_devices_loop, if_neg hbl]
            cases hp : parseDeviceLine (pyStrip l) with
            | error e => simp [Except.bind]
            | ok d => exact ih done (some ⟨sec.section_name, sec.devices ++ [d]⟩)

/-- Claim C3: a blank (after trimming) line closes the current section; a
non-blank line with no current section opens a new section labeled by the
raw untrimmed line; any other non-blank line is trimmed, parsed as a device
property line and appended to the current section; and two groups of lines
separated by a blank line are extracted as separate sections, never
merged — the whole extraction is the concatenation of the two groups'
extractions. -/
theorem c3_blank_line_sectioning :
    (∀ (l : List Char) (rest : List (List Char))
        (done : List QEMUGeneratedDevicesSection)
        (cur : Option QEMUGeneratedDevicesSection), pyStrip l = [] →
      extract_devices_loop (l :: rest) done cur
        = extract_devices_loop rest (done ++ cur.toList) none) ∧
    (∀ (l : List Char) (rest : List (List Char))
        (done : List QEMUGeneratedDevicesSection), pyStrip l ≠ [] →
      extract_devices_loop (l :: rest) done none
        = extract_devices_loop rest done (some ⟨l, []⟩)) ∧
    (∀ (l : List Char) (rest : List (List Char))
        (done : List QEMUGeneratedDevicesSection)
        (sec : QEMUGeneratedDevicesSection), pyStrip l ≠ [] →
      extract_devices_loop (l :: rest) done (some sec)
        = (parseDeviceLine (pyStrip l)).bind fun d =>
            extract_devices_loop rest done
              (some ⟨sec.section_name, sec.devices ++ [d]⟩)) ∧
    (∀ (xs : List (List Char)) (b : List Char) (ys : List (List Char)),
      pyStrip b = [] →
      extract_devices (xs ++ b :: ys)
        = (extract_devices xs).bind fun s1 =>
            (extract_devices ys).map fun s2 => s1 ++ s2) := by
  refine ⟨?_, ?_, ?_, ?_⟩
  · intro l rest done cur hb
    simp only [extract_devices_loop, if_pos hb]
  · intro l rest done hb
    simp only [extract_devices_loop, if_neg hb]
  · intro l rest done sec hb
    simp only [extract_devices_loop, if_neg hb]
    cases hp : parseDeviceLine (pyStrip l) with
    | error e => simp [Except.bind]
    | ok d => simp [Except.bind]
  · intro xs b ys hb
    exact extract_loop_split b hb ys xs [] none

/-- Two one-device section groups. -/
def catalogA : List (List Char) := ["Net:".toList, "name a,".toList]

/-- Another one-device section group. -/
def catalogB : List (List Char) := ["Storage:".toList, "name b,".toList]

/-- Witness for C3 at a concrete catalog: a blank line between the two
groups makes the extraction the concatenation of their extractions. -/
theorem c3_witness :
    extract_devices (catalogA ++ "".toList :: catalogB)
      = (extract_devices catalogA).bind fun s1 =>
          (extract_devices catalogB).map fun s2 => s1 ++ s2 :=
  c3_blank_line_sectioning.2.2.2 catalogA "".toList catalogB (by rfl)

end PyQemu
